import Mathlib

/-!
Verification of the artifact-extraction and patch-application pipeline of the
repository (streaming tag parser, block classifier, patch engine, command
queue, debounced batcher, file/folder lock store).

Strings are modelled as `List Char` (JavaScript strings are sequences of
UTF-16 code units; every input considered here is plain ASCII/BMP text, for
which the two views agree).  Each JavaScript function used by a claim is
translated into an executable Lean definition that mirrors the source
statement by statement; JS regular expressions are translated into explicit
backtracking matchers with the same greedy, leftmost-match semantics.
-/

/-! ## JavaScript string primitives -/

/-- Whitespace recognised by `String.prototype.trim` (the code points that
occur in the inputs of this development). -/
def isJsWs (c : Char) : Bool :=
  c = ' ' || c = '\t' || c = '\n' || c = '\r' ||
  c = Char.ofNat 11 || c = Char.ofNat 12 || c = Char.ofNat 160

/-- `s.trim()`. -/
def jsTrim (s : List Char) : List Char :=
  ((s.dropWhile isJsWs).reverse.dropWhile isJsWs).reverse

/-- Boolean prefix test (`List.isPrefixOf` specialised to `Char`, spelled out
so that its equations are convenient to reason about). -/
def leadsWith : List Char → List Char → Bool
  | [], _ => true
  | _ :: _, [] => false
  | a :: as, b :: bs => a = b && leadsWith as bs

/-- Auxiliary scan for `indexOfFrom`: first index (counting from `i`) at which
`pat` is a prefix of the remaining text. -/
def firstOccAux (pat : List Char) : List Char → Nat → Option Nat
  | [], i => if pat.isEmpty then some i else none
  | c :: cs, i => if leadsWith pat (c :: cs) then some i else firstOccAux pat cs (i + 1)

/-- `s.indexOf(pat, pos)`, with `none` for JavaScript's `-1`. -/
def indexOfFrom (s pat : List Char) (pos : Nat) : Option Nat :=
  (firstOccAux pat (s.drop pos) 0).map (· + pos)

/-- `s.indexOf(pat)`. -/
def indexOfList (s pat : List Char) : Option Nat :=
  indexOfFrom s pat 0

/-- `s.substring(a, b)` (JavaScript swaps the endpoints when `a > b`). -/
def jsSubstring (s : List Char) (a b : Nat) : List Char :=
  (s.take (max a b)).drop (min a b)

/-- Number of newline characters; `s.split("\n").length` is this plus one. -/
def countNl (s : List Char) : Nat :=
  s.count '\n'

/-! ## Patch engine (`src/lib/diff-patch.ts`)

Marker constants from `src/lib/diff-constants.ts`. -/

def searchStartMark : List Char := "<<<<<<< SEARCH".data

def dividerMark : List Char := "=======".data

def replaceEndMark : List Char := ">>>>>>> REPLACE".data

/-- ECMAScript `GetSubstitution` for a string pattern (no capture groups):
expansion of `$$`, `$&`, `$` + backquote and `$` + quote escapes performed by
`String.prototype.replace`.  Any other `$` sequence is kept literally. -/
def getSubstitution (matched before after : List Char) : List Char → List Char
  | [] => []
  | c :: rest =>
    if c = '$' then
      match rest with
      | [] => ['$']
      | d :: rest2 =>
        if d = '$' then '$' :: getSubstitution matched before after rest2
        else if d = '&' then matched ++ getSubstitution matched before after rest2
        else if d = Char.ofNat 96 then before ++ getSubstitution matched before after rest2
        else if d = Char.ofNat 39 then after ++ getSubstitution matched before after rest2
        else '$' :: getSubstitution matched before after (d :: rest2)
    else c :: getSubstitution matched before after rest

/-- `s.replace(pat, repl)` with a string pattern: the first occurrence of
`pat` is replaced by the `GetSubstitution` expansion of `repl`; if `pat` does
not occur the string is returned unchanged. -/
def jsReplaceFirst (s pat repl : List Char) : List Char :=
  match indexOfList s pat with
  | none => s
  | some i =>
    s.take i ++ getSubstitution pat (s.take i) (s.drop (i + pat.length)) repl ++
      s.drop (i + pat.length)

/-- Result record of `applyDiffPatches`. -/
structure DiffResult where
  modifiedContent : List Char
  updatedLines : List (Nat × Nat)
  hasChanges : Bool
  deriving Repr, DecidableEq

/-- The `while (moreBlocks)` loop of `applyDiffPatches`, with the mutable
locals (`position`, `modifiedContent`, `updatedLines`, `hasChanges`) passed
explicitly.  `fuel` bounds the number of iterations; each iteration advances
`position` by at least the length of `REPLACE_END`, so
`diffContent.length + 1` iterations always suffice. -/
def applyDiffAux (diff : List Char) :
    Nat → Nat → List Char → List (Nat × Nat) → Bool → DiffResult
  | 0, _, content, ranges, flag => ⟨content, ranges, flag⟩
  | fuel + 1, pos, content, ranges, flag =>
    match indexOfFrom diff searchStartMark pos with
    | none => ⟨content, ranges, flag⟩
    | some si =>
      match indexOfFrom diff dividerMark si with
      | none => ⟨content, ranges, flag⟩
      | some di =>
        match indexOfFrom diff replaceEndMark di with
        | none => ⟨content, ranges, flag⟩
        | some ri =>
          let searchBlock := jsTrim (jsSubstring diff (si + searchStartMark.length) di)
          let replaceBlock := jsTrim (jsSubstring diff (di + dividerMark.length) ri)
          let next := ri + replaceEndMark.length
          if searchBlock.isEmpty then
            applyDiffAux diff fuel next (replaceBlock ++ '\n' :: content)
              (ranges ++ [(1, countNl replaceBlock + 1)]) true
          else
            match indexOfList content searchBlock with
            | none => applyDiffAux diff fuel next content ranges flag
            | some bp =>
              let beforeText := jsSubstring content 0 bp
              let startLine := countNl beforeText + 1
              let replaceLines := countNl replaceBlock + 1
              applyDiffAux diff fuel next (jsReplaceFirst content searchBlock replaceBlock)
                (ranges ++ [(startLine, startLine + replaceLines - 1)]) true

/-- `applyDiffPatches(originalContent, diffContent)`. -/
def applyDiffPatches (originalContent diffContent : List Char) : DiffResult :=
  applyDiffAux diffContent (diffContent.length + 1) 0 originalContent [] false

/-! ## File store locking (`src/unnamed/part_002`, zustand file store)

The store state relevant to the locking system is the `files` record mapping
paths to dirents.  A JavaScript object with unique keys is modelled as an
association list; `Object.keys(x).forEach` with per-key updates becomes an
entrywise map. -/

/-- A dirent: `File` or `Folder` of the source, with the optional JS fields
`isLocked?` and `lockedByFolder?` as `Option`s. -/
inductive Dirent where
  | file (content : List Char) (isBinary : Bool) (isLocked : Option Bool)
      (lockedByFolder : Option (List Char))
  | folder (isLocked : Option Bool) (lockedByFolder : Option (List Char))
  deriving Repr, DecidableEq

/-- The `files: FileMap` record. -/
def FileMap : Type := List (List Char × Dirent)

instance : DecidableEq FileMap := by
  unfold FileMap
  infer_instance

/-- `files[path]` lookup. -/
def lookupFM : FileMap → List Char → Option Dirent
  | [], _ => none
  | (q, d) :: rest, p => if q = p then some d else lookupFM rest p

/-- Apply a per-key update to every entry (the `Object.keys(...).forEach`
pattern of the source; keys are unchanged). -/
def mapEntries (f : List Char → Dirent → Dirent) (m : FileMap) : FileMap :=
  m.map (fun e => (e.1, f e.1 e.2))

/-- `updatedFiles[path] = d` for an existing key. -/
def updEntry (m : FileMap) (p : List Char) (d : Dirent) : FileMap :=
  mapEntries (fun q old => if q = p then d else old) m

/-- `lockFile(filePath)`: spreads the file with `isLocked: true`; returns
`false` (leaving the map unchanged) when the path is not a file. -/
def lockFile (m : FileMap) (p : List Char) : Bool × FileMap :=
  match lookupFM m p with
  | some (Dirent.file c b _ lbf) => (true, updEntry m p (Dirent.file c b (some true) lbf))
  | _ => (false, m)

/-- `lockFolder(folderPath)`: locks the folder entry, then marks every file
whose path starts with `folderPath + "/"` as locked with
`lockedByFolder: folderPath` (overwriting any previous value). -/
def lockFolder (m : FileMap) (fp : List Char) : Bool × FileMap :=
  match lookupFM m fp with
  | some (Dirent.folder _ lbf) =>
    let m1 := updEntry m fp (Dirent.folder (some true) lbf)
    let m2 := mapEntries (fun p d =>
      match d with
      | Dirent.file c b _ _ =>
        if leadsWith (fp ++ ['/']) p then Dirent.file c b (some true) (some fp) else d
      | _ => d) m1
    (true, m2)
  | _ => (false, m)

/-- `unlockFolder(folderPath)`: unlocks the folder entry, then clears
`isLocked`/`lockedByFolder` on exactly the files under the folder whose
`lockedByFolder` equals the folder path. -/
def unlockFolder (m : FileMap) (fp : List Char) : Bool × FileMap :=
  match lookupFM m fp with
  | some (Dirent.folder _ lbf) =>
    let m1 := updEntry m fp (Dirent.folder (some false) lbf)
    let m2 := mapEntries (fun p d =>
      match d with
      | Dirent.file c b il flbf =>
        if leadsWith (fp ++ ['/']) p then
          (if flbf = some fp then Dirent.file c b (some false) none else Dirent.file c b il flbf)
        else d
      | _ => d) m1
    (true, m2)
  | _ => (false, m)

/-- Result of `isFileLocked`. -/
structure LockQuery where
  locked : Bool
  lockedBy : Option (List Char)
  deriving Repr, DecidableEq

/-- `isFileLocked(filePath)`: truthiness of `file.isLocked`, with
`lockedBy: file.lockedByFolder || filePath` (the JS `||` falls through on an
empty string). -/
def isFileLocked (m : FileMap) (p : List Char) : LockQuery :=
  match lookupFM m p with
  | some (Dirent.file _ _ il lbf) =>
    if il = some true then
      ⟨true, some (match lbf with
        | some l => if l.isEmpty then p else l
        | none => p)⟩
    else ⟨false, none⟩
  | _ => ⟨false, none⟩

/-! ## Streaming tag parser (`src/lib/streaming-parser.ts`)

The four `/g` regexes of `parse` are translated into explicit matchers with
JavaScript semantics: leftmost match, greedy `[^>]*` with backtracking, and
`exec` resuming at the end of the previous match. -/

/-- Consume a literal; `none` when the text does not start with it. -/
def dropLit : List Char → List Char → Option (List Char)
  | [], l => some l
  | _ :: _, [] => none
  | c :: cs, x :: xs => if c = x then dropLit cs xs else none

/-- Greedy `[^>]*` followed by a continuation, with backtracking: the longest
consumable run is tried first, shrinking on failure (JS greedy-star
semantics). -/
def starNG {α : Type} (k : List Char → Option α) : List Char → Option α
  | [] => k []
  | c :: cs =>
    if c = '>' then k (c :: cs)
    else
      match starNG k cs with
      | some r => some r
      | none => k (c :: cs)

/-- Matcher for `<boltArtifact[^>]*id="([^"]*)"[^>]*title="([^"]*)"[^>]*>` at
the head of the text; returns the two captures and the remaining text. -/
def matchArtifactOpenAt (l : List Char) : Option ((List Char × List Char) × List Char) :=
  match dropLit "<boltArtifact".data l with
  | none => none
  | some r0 =>
    starNG (fun r1 =>
      match dropLit "id=\"".data r1 with
      | none => none
      | some r2 =>
        let idCap := r2.takeWhile (fun c => c ≠ '"')
        match dropLit ['"'] (r2.drop idCap.length) with
        | none => none
        | some r3 =>
          starNG (fun r4 =>
            match dropLit "title=\"".data r4 with
            | none => none
            | some r5 =>
              let tCap := r5.takeWhile (fun c => c ≠ '"')
              match dropLit ['"'] (r5.drop tCap.length) with
              | none => none
              | some r6 =>
                starNG (fun r7 =>
                  match dropLit ['>'] r7 with
                  | none => none
                  | some r8 => some ((idCap, tCap), r8)) r6) r3) r0

/-- Matcher for
`<boltAction[^>]*type="([^"]*)"[^>]*(?:filePath="([^"]*)")?[^>]*>`; the
optional group is attempted before it is skipped, as in JS. -/
def matchActionOpenAt (l : List Char) : Option ((List Char × Option (List Char)) × List Char) :=
  match dropLit "<boltAction".data l with
  | none => none
  | some r0 =>
    starNG (fun r1 =>
      match dropLit "type=\"".data r1 with
      | none => none
      | some r2 =>
        let tyCap := r2.takeWhile (fun c => c ≠ '"')
        match dropLit ['"'] (r2.drop tyCap.length) with
        | none => none
        | some r3 =>
          starNG (fun r4 =>
            let tail := fun (fp : Option (List Char)) (r : List Char) =>
              starNG (fun r7 =>
                match dropLit ['>'] r7 with
                | none => none
                | some r8 => some ((tyCap, fp), r8)) r
            match
              (match dropLit "filePath=\"".data r4 with
               | none => none
               | some r5 =>
                 let fpCap := r5.takeWhile (fun c => c ≠ '"')
                 match dropLit ['"'] (r5.drop fpCap.length) with
                 | none => none
                 | some r6 => tail (some fpCap) r6) with
            | some r => some r
            | none => tail none r4) r3) r0

/-- Literal-tag matcher (for `</boltAction>` and `</boltArtifact>`). -/
def matchLitAt (lit : List Char) (l : List Char) : Option (Unit × List Char) :=
  (dropLit lit l).map (fun r => ((), r))

/-- The `while ((match = regex.exec(text)) !== null)` loop: leftmost matches
found in order, each search resuming after the end of the previous match.
Every pattern starts with a literal `<`, so each step consumes at least one
character and `text.length` steps of fuel suffice. -/
def scanMatches {α : Type} (matchAt : List Char → Option (α × List Char)) :
    Nat → List Char → List α
  | 0, _ => []
  | _ + 1, [] => []
  | f + 1, c :: cs =>
    match matchAt (c :: cs) with
    | some (caps, rest) => caps :: scanMatches matchAt f rest
    | none => scanMatches matchAt f cs

/-- All matches of the artifact-open pattern. -/
def artifactOpens (s : List Char) : List (List Char × List Char) :=
  scanMatches matchArtifactOpenAt s.length s

/-- All matches of the action-open pattern. -/
def actionOpens (s : List Char) : List (List Char × Option (List Char)) :=
  scanMatches matchActionOpenAt s.length s

/-- Number of `</boltAction>` matches. -/
def actionCloseCount (s : List Char) : Nat :=
  (scanMatches (matchLitAt "</boltAction>".data) s.length s).length

/-- Number of `</boltArtifact>` matches. -/
def artifactCloseCount (s : List Char) : Nat :=
  (scanMatches (matchLitAt "</boltArtifact>".data) s.length s).length

/-- `ParsedAction` of the source. -/
structure PAction where
  type : List Char
  filePath : Option (List Char)
  content : List Char
  id : List Char
  deriving Repr, DecidableEq

/-- `ParsedArtifact` of the source. -/
structure PArtifact where
  id : List Char
  title : List Char
  actions : List PAction
  deriving Repr, DecidableEq

/-- Per-message parser state (`this.messages.get(messageId)`). -/
structure MsgState where
  position : Nat
  insideArtifact : Bool
  insideAction : Bool
  currentArtifact : Option PArtifact
  currentAction : Option PAction
  actionId : Nat
  deriving Repr, DecidableEq

/-- Fresh per-message state. -/
def initMsgState : MsgState :=
  ⟨0, false, false, none, none, 0⟩

/-- The artifact-open `while` loop body, folded over all matches: sets
`insideArtifact` and replaces `currentArtifact` (last writer wins). -/
def applyArtifactOpens (st : MsgState) (ms : List (List Char × List Char)) : MsgState :=
  ms.foldl (fun s m =>
    { s with insideArtifact := true, currentArtifact := some ⟨m.1, m.2, []⟩ }) st

/-- The action-open `while` loop body: bumps `actionId` and replaces
`currentAction` with a fresh action of empty content and id
`messageId + "-" + actionId`. -/
def applyActionOpens (mid : List Char) (st : MsgState)
    (ms : List (List Char × Option (List Char))) : MsgState :=
  ms.foldl (fun s m =>
    { s with
      insideAction := true
      actionId := s.actionId + 1
      currentAction := some ⟨m.1, m.2, [], mid ++ '-' :: (Nat.repr (s.actionId + 1)).data⟩ }) st

/-- The action-close `while` loop, run once per `</boltAction>` match: when an
action is open it is emitted via `onActionStream`, appended to the open
artifact's action list, and the open-action state is cleared; otherwise the
match is a no-op.  Returns the new state and the emitted actions in order. -/
def applyActionCloses : Nat → MsgState → MsgState × List PAction
  | 0, st => (st, [])
  | n + 1, st =>
    if st.insideAction then
      match st.currentAction with
      | some a =>
        let st1 := { st with
          currentArtifact := st.currentArtifact.map
            (fun art => { art with actions := art.actions ++ [a] }),
          insideAction := false, currentAction := none }
        let r := applyActionCloses n st1
        (r.1, a :: r.2)
      | none => applyActionCloses n st
    else applyActionCloses n st

/-- The artifact-close `while` loop, run once per `</boltArtifact>` match:
when an artifact is open it is emitted via `onArtifactComplete` and cleared;
otherwise the match is a no-op. -/
def applyArtifactCloses : Nat → MsgState → MsgState × List PArtifact
  | 0, st => (st, [])
  | n + 1, st =>
    if st.insideArtifact then
      match st.currentArtifact with
      | some art =>
        let st1 := { st with insideArtifact := false, currentArtifact := none }
        let r := applyArtifactCloses n st1
        (r.1, art :: r.2)
      | none => applyArtifactCloses n st
    else applyArtifactCloses n st

/-- The trailing accumulation step of `parse`: while inside an open action,
append the new content up to the next `</boltAction>` (or all of it). -/
def accumulateContent (newContent : List Char) (st : MsgState) : MsgState :=
  if st.insideAction then
    match st.currentAction with
    | some a =>
      let chunk :=
        match indexOfList newContent "</boltAction>".data with
        | some i => newContent.take i
        | none => newContent
      { st with currentAction := some { a with content := a.content ++ chunk } }
    | none => st
  else st

/-- One call of `StreamingParser.parse(messageId, input)`: scan the suffix
added since the last call and run the four loops and the accumulation step.
Returns the new state, the actions passed to `onActionStream` and the
artifacts passed to `onArtifactComplete`. -/
def parseStep (mid : List Char) (st : MsgState) (input : List Char) :
    MsgState × List PAction × List PArtifact :=
  let newContent := input.drop st.position
  let st1 := { st with position := input.length }
  let st2 := applyArtifactOpens st1 (artifactOpens newContent)
  let st3 := applyActionOpens mid st2 (actionOpens newContent)
  let acts := applyActionCloses (actionCloseCount newContent) st3
  let arts := applyArtifactCloses (artifactCloseCount newContent) acts.1
  let st6 := accumulateContent newContent arts.1
  (st6, acts.2, arts.2)

/-- Run a fresh session through a sequence of cumulative inputs, collecting
every completed artifact. -/
def runParse (mid : List Char) (inputs : List (List Char)) : List PArtifact :=
  (inputs.foldl (fun (acc : MsgState × List PArtifact) input =>
    let r := parseStep mid acc.1 input
    (r.1, acc.2 ++ r.2.2)) (initMsgState, [])).2

/-! ## Block classifier (`src/lib/enhanced-message-parser.ts`)

Character classes and helpers for the anchored regexes of the shell-command
heuristics.  `\\w` is `[A-Za-z0-9_]`; the `/i` classes include both cases. -/

/-- ASCII letter (for `/i` character classes). -/
def isAlphaChar (c : Char) : Bool :=
  ('a' ≤ c && c ≤ 'z') || ('A' ≤ c && c ≤ 'Z')

/-- `\\w`. -/
def isWordChar (c : Char) : Bool :=
  isAlphaChar c || c.isDigit || c = '_'

/-- `[a-z0-9-_]` under `/i`. -/
def isClassA (c : Char) : Bool :=
  isAlphaChar c || c.isDigit || c = '-' || c = '_'

/-- `[a-z0-9-_./]` under `/i`. -/
def isClassPath (c : Char) : Bool :=
  isClassA c || c = '.' || c = '/'

/-- `[\\/\\w\\-\\.]`. -/
def isFileChar (c : Char) : Bool :=
  c = '/' || isWordChar c || c = '-' || c = '.'

/-- `s.toLowerCase()` (ASCII inputs). -/
def jsToLowerStr (l : List Char) : List Char :=
  l.map Char.toLower

/-- `s.split("\n")`. -/
def splitOnNl : List Char → List (List Char)
  | [] => [[]]
  | c :: cs =>
    if c = '\n' then [] :: splitOnNl cs
    else
      match splitOnNl cs with
      | [] => [[c]]
      | h :: t => (c :: h) :: t

/-- A chaining character of `/[;&|]{1,2}/`. -/
def isChainChar (c : Char) : Bool :=
  c = ';' || c = '&' || c = '|'

/-- `/[;&|]{1,2}/.test(line)`. -/
def hasChaining (l : List Char) : Bool :=
  l.any isChainChar

/-- `line.split(/[;&|]{1,2}/)`: separators are greedy runs of one or two
chaining characters. -/
def splitChain : List Char → List (List Char)
  | [] => [[]]
  | [c] => if isChainChar c then [[], []] else [[c]]
  | c :: d :: ds =>
    if isChainChar c then
      if isChainChar d then [] :: splitChain ds
      else [] :: splitChain (d :: ds)
    else
      match splitChain (d :: ds) with
      | [] => [[c]]
      | h :: t => (c :: h) :: t

/-- `line.replace(/^word\\s+/, "")`: strip a leading word followed by at
least one whitespace character (and, greedily, the whole whitespace run). -/
def stripStart (word : List Char) (l : List Char) : List Char :=
  match dropLit word l with
  | none => l
  | some [] => l
  | some (c :: cs) => if isJsWs c then (c :: cs).dropWhile isJsWs else l

/-- `line.replace(/^env\\s+\\w+=\\w+\\s+/, "")`. -/
def stripEnv (l : List Char) : List Char :=
  match dropLit "env".data l with
  | none => l
  | some [] => l
  | some (c :: cs) =>
    if !isJsWs c then l
    else
      let r2 := (c :: cs).dropWhile isJsWs
      let w1 := r2.takeWhile isWordChar
      if w1.isEmpty then l
      else
        match r2.drop w1.length with
        | '=' :: r3 =>
          let w2 := r3.takeWhile isWordChar
          if w2.isEmpty then l
          else
            match r3.drop w2.length with
            | d :: ds => if isJsWs d then (d :: ds).dropWhile isJsWs else l
            | [] => l
        | _ => l

/-- The sequential prefix stripping of `isSingleLineCommand`
(`sudo`, `time`, `nohup`, `watch`, `env VAR=val`). -/
def stripPrefixPatterns (l : List Char) : List Char :=
  stripEnv (stripStart "watch".data (stripStart "nohup".data
    (stripStart "time".data (stripStart "sudo".data l))))

/-- Word of an anchored alternation followed by `\\s+`: returns the text
after the whitespace run. -/
def startsWordThenWs (w : List Char) (l : List Char) : Option (List Char) :=
  match dropLit w l with
  | none => none
  | some [] => none
  | some (c :: cs) => if isJsWs c then some ((c :: cs).dropWhile isJsWs) else none

/-- Does any word of the list match as a literal prefix? -/
def anyLit (ws : List (List Char)) (l : List Char) : Bool :=
  ws.any (fun w => (dropLit w l).isSome)

/-- Anchored `^(w₁|w₂|…)\\s+` test. -/
def wordThenWsAny (words : List (List Char)) (l : List Char) : Bool :=
  words.any (fun w => (startsWordThenWs w l).isSome)

/-- Anchored `^(w₁|…)\\s+(v₁|v₂|…)` test (the `npm`/`git` table entries). -/
def wordWsWordAny (words seconds : List (List Char)) (l : List Char) : Bool :=
  words.any (fun w =>
    match startsWordThenWs w l with
    | some rest => anyLit seconds rest
    | none => false)

/-- String literals to character lists. -/
def wlist (ss : List String) : List (List Char) :=
  ss.map String.data

/-- The eleven `commandPatterns` of the source, tested in order against the
prefix-stripped line (`pattern.test(cleanLine)`). -/
def matchesCommandPatterns (l : List Char) : Bool :=
  wordWsWordAny (wlist ["npm", "yarn", "pnpm"])
    (wlist ["install", "run", "start", "build", "dev", "test", "init", "create", "add", "remove"]) l ||
  wordWsWordAny (wlist ["git"])
    (wlist ["add", "commit", "push", "pull", "clone", "status", "checkout", "branch", "merge",
      "rebase", "init", "remote", "fetch", "log"]) l ||
  wordThenWsAny (wlist ["docker", "docker-compose"]) l ||
  wordThenWsAny (wlist ["make", "cmake", "gradle", "mvn", "cargo", "go"]) l ||
  wordThenWsAny (wlist ["curl", "wget", "ping", "ssh", "scp", "rsync"]) l ||
  anyLit (wlist ["cat", "chmod", "cp", "echo", "hostname", "kill", "ln", "ls", "mkdir", "mv",
    "ps", "pwd", "rm", "rmdir", "xxd"]) l ||
  wordThenWsAny (wlist ["node", "python", "python3", "java", "go", "rust", "ruby", "php", "perl"]) l ||
  wordThenWsAny (wlist ["grep", "sed", "awk", "cut", "tr", "sort", "uniq", "wc", "diff"]) l ||
  wordThenWsAny (wlist ["tar", "zip", "unzip", "gzip", "gunzip"]) l ||
  anyLit (wlist ["ps", "top", "htop", "kill", "killall", "jobs", "nohup"]) l ||
  anyLit (wlist ["df", "du", "free", "uname", "whoami", "id", "groups", "date", "uptime"]) l

/-- `line.split(/\\s+/)[0]` (the only part of the split the source uses). -/
def firstWordOf (l : List Char) : List Char :=
  match l with
  | [] => []
  | c :: cs => if isJsWs c then [] else (c :: cs).takeWhile (fun x => !isJsWs x)

/-- Anchored `^\\w+\\s*\\(\\s*\\)` test (function-definition shape). -/
def matchesFnShape (l : List Char) : Bool :=
  let w := l.takeWhile isWordChar
  if w.isEmpty then false
  else
    match (l.drop w.length).dropWhile isJsWs with
    | '(' :: r2 =>
      match r2.dropWhile isJsWs with
      | ')' :: _ => true
      | _ => false
    | _ => false

/-- Anchored `^(kw₁|…)\\s` test (single whitespace, no `+`). -/
def startsKwWs (kws : List (List Char)) (l : List Char) : Bool :=
  kws.any (fun kw =>
    match dropLit kw l with
    | some (c :: _) => isJsWs c
    | _ => false)

/-- The four `commandLikePatterns`, tested against the first word. -/
def commandLikeAny (w : List Char) : Bool :=
  (match w with
   | c :: cs => isAlphaChar c && cs.all isClassA
   | [] => false) ||
  (match dropLit "./".data w with
   | some r => !r.isEmpty && r.all isClassPath
   | none => false) ||
  (match w with
   | '/' :: r => !r.isEmpty && r.all isClassPath
   | _ => false) ||
  (match w with
   | c :: cs =>
     isAlphaChar c &&
       (match cs.dropWhile isClassA with
        | d :: ds =>
          isJsWs d &&
            (match (d :: ds).dropWhile isJsWs with
             | '-' :: e => !e.isEmpty
             | _ => false)
        | [] => false)
   | [] => false)

/-- `isSimpleCommand(line)`. -/
def isSimpleCommand (line : List Char) : Bool :=
  let firstWord := firstWordOf line
  if line.contains '=' && !leadsWith "export ".data line && !leadsWith "env ".data line &&
      !firstWord.contains '=' then false
  else if (indexOfList line "function ".data).isSome || matchesFnShape line then false
  else if startsKwWs (wlist ["if", "for", "while", "case", "function", "until", "select"]) line then
    false
  else commandLikeAny firstWord

/-- One `scriptIndicators` test on a trimmed line. -/
def scriptIndicatorAny (t : List Char) : Bool :=
  leadsWith "#!".data t ||
  t.tails.any (fun suf =>
    match dropLit "function".data suf with
    | some (c :: cs) =>
      isJsWs c &&
        (match (c :: cs).dropWhile isJsWs with
         | d :: _ => isWordChar d
         | [] => false)
    | _ => false) ||
  (let w := t.takeWhile isWordChar
   if w.isEmpty then false
   else
     match (t.drop w.length).dropWhile isJsWs with
     | '(' :: r2 =>
       (match r2.dropWhile isJsWs with
        | ')' :: r3 =>
          (match r3.dropWhile isJsWs with
           | b :: _ => b = Char.ofNat 123
           | [] => false)
        | _ => false)
     | _ => false) ||
  (wlist ["if", "for", "while", "case"]).any (fun kw =>
    match dropLit kw t with
    | some (c :: cs) =>
      isJsWs c &&
        ((indexOfList cs "then".data).isSome || (indexOfList cs "do".data).isSome ||
          (indexOfList cs "in".data).isSome)
    | _ => false) ||
  (let w := t.takeWhile isWordChar
   if w.isEmpty then false
   else
     match t.drop w.length with
     | '=' :: d :: _ => d ≠ '='
     | _ => false) ||
  startsKwWs (wlist ["local", "declare", "readonly"]) t ||
  startsKwWs (wlist ["source", "."]) t ||
  (wlist ["exit", "return"]).any (fun kw =>
    match dropLit kw t with
    | some (c :: cs) =>
      isJsWs c &&
        (match (c :: cs).dropWhile isJsWs with
         | d :: _ => d.isDigit
         | [] => false)
    | _ => false)

/-- `looksLikeScriptContent(content)`: any non-empty, non-comment trimmed
line matching a script indicator. -/
def looksLikeScriptContent (content : List Char) : Bool :=
  (splitOnNl (jsTrim content)).any (fun line =>
    let t := jsTrim line
    if t.isEmpty || leadsWith ['#'] t then false else scriptIndicatorAny t)

/-- `isSingleLineCommand(line)`. -/
def isSingleLineCommand (line : List Char) : Bool :=
  if hasChaining line then
    ((splitChain line).map jsTrim).all (fun part =>
      decide (0 < part.length) && !looksLikeScriptContent part)
  else
    let cleanLine := stripPrefixPatterns line
    if matchesCommandPatterns cleanLine then true else isSimpleCommand cleanLine

/-- `isCommandSequence(lines)`: the `> 0.7` double comparison agrees with the
exact rational comparison for every feasible line count, so it is modelled
exactly. -/
def isCommandSequence (lines : List (List Char)) : Bool :=
  let commandLikeLines := lines.filter (fun line =>
    decide (0 < line.length) && !leadsWith ['#'] line &&
      (isSingleLineCommand line || isSimpleCommand line))
  decide (10 * commandLikeLines.length > 7 * lines.length)

/-- The recognised shell fence languages. -/
def shellLanguages : List (List Char) :=
  wlist ["bash", "sh", "shell", "zsh", "fish", "powershell", "ps1"]

/-- The trimmed, non-empty lines of `isShellCommand`. -/
def shellLines (content : List Char) : List (List Char) :=
  ((splitOnNl (jsTrim content)).map jsTrim).filter (fun l => !l.isEmpty)

/-- `isShellCommand(content, language)`. -/
def isShellCommand (content lang : List Char) : Bool :=
  if !(shellLanguages.contains (jsToLowerStr lang)) then false
  else
    let trimmedContent := jsTrim content
    let lines := shellLines content
    if lines.isEmpty then false
    else if looksLikeScriptContent trimmedContent then false
    else if lines.length = 1 then isSingleLineCommand lines.headI
    else isCommandSequence lines

/-! ### Dedup pipeline of `EnhancedMessageParser.parse`

`parse` maps the input through `detectCodeBlocks`/`detectFileOperations`
(five overlapping regex patterns and a prose pattern) and deduplicates the
detected blocks through a per-message set of content hashes before
classifying them.  The two detector calls are passed to the model of `parse`
as the lists they return; every theorem below quantifies over those lists, so
it holds in particular for the source's regex detectors. -/

/-- A block returned by `detectCodeBlocks`: `match[0]`, the pattern tag, and
the extracted (normalised) path, language and content. -/
structure DetectedBlock where
  matchText : List Char
  ptype : List Char
  filePath : List Char
  language : List Char
  content : List Char
  deriving Repr, DecidableEq

/-- An operation returned by `detectFileOperations`. -/
structure FileOperation where
  matchText : List Char
  filePath : List Char
  content : List Char
  deriving Repr, DecidableEq

/-- The `type` field of a `ParsedContent`. -/
inductive PCKind where
  | file
  | command
  | text
  deriving Repr, DecidableEq

/-- `ParsedContent` (the `type` field is `kind` here; `type` is reserved). -/
structure ParsedContent where
  kind : PCKind
  content : List Char
  filePath : Option (List Char)
  language : Option (List Char)
  artifactId : Option (List Char)
  deriving Repr, DecidableEq

/-- Signed 32-bit wrap (`x & x` coerces to Int32 in JS). -/
def toInt32 (n : Int) : Int :=
  (n + 2 ^ 31) % 2 ^ 32 - 2 ^ 31

/-- One step of `hashBlock`: `hash = (hash << 5) - hash + char; hash &= hash`. -/
def hashStep (h : Int) (c : Char) : Int :=
  toInt32 (toInt32 (h * 32) - h + c.toNat)

/-- The 32-bit rolling hash value of `hashBlock`. -/
def hashVal (s : List Char) : Int :=
  s.foldl hashStep 0

/-- Base-36 digit (lower-case, as `Number.prototype.toString(36)`). -/
def digit36 (d : Nat) : Char :=
  if d < 10 then Char.ofNat (48 + d) else Char.ofNat (87 + d)

/-- Base-36 digits of a natural number (fuel-based; `n + 1` always
suffices). -/
def natToBase36Aux : Nat → Nat → List Char
  | 0, _ => []
  | f + 1, n => if n < 36 then [digit36 n] else natToBase36Aux f (n / 36) ++ [digit36 (n % 36)]

/-- `n.toString(36)` for a natural number. -/
def natToBase36 (n : Nat) : List Char :=
  natToBase36Aux (n + 1) n

/-- `hashBlock(content)`: the hash value rendered in base 36 (with a leading
minus sign when negative). -/
def hashBlock (s : List Char) : List Char :=
  let h := hashVal s
  if h < 0 then '-' :: natToBase36 h.natAbs else natToBase36 h.toNat

/-- `isValidFilePath(filePath)`. -/
def isValidFilePath (p : List Char) : Bool :=
  if p.isEmpty then false
  else
    let revw := p.reverse.takeWhile isWordChar
    let hasExt := !revw.isEmpty &&
      (match p.reverse.drop revw.length with
       | '.' :: _ => true
       | _ => false)
    if !hasExt then false
    else if !(p.all isFileChar) then false
    else
      let lp := jsToLowerStr p
      let q := match lp with
        | '/' :: r => r
        | _ => lp
      !((wlist ["tmp", "temp", "test", "example"]).any (fun w => leadsWith (w ++ ['/']) q) ||
        (wlist [".tmp", ".temp", ".bak", ".backup", ".old", ".orig"]).any
          (fun w => leadsWith w.reverse lp.reverse) ||
        (wlist ["output", "result", "response"]).any (fun w => leadsWith (w ++ ['/']) q) ||
        (match dropLit "code_".data lp with
         | some r =>
           let ds := r.takeWhile Char.isDigit
           !ds.isEmpty &&
             (match r.drop ds.length with
              | '.' :: ext => (wlist ["sh", "bash", "zsh"]).contains ext
              | _ => false)
         | none => false) ||
        (wlist ["untitled", "new", "demo", "sample"]).any (fun w =>
          match dropLit w lp with
          | some r =>
            (match r.dropWhile Char.isDigit with
             | '.' :: _ => true
             | _ => false)
          | none => false))

/-- `classifyBlock(block, messageId)` with the mutable `artifactCounter`
passed and returned explicitly (it is bumped exactly when a result is
emitted). -/
def classifyBlock (b : DetectedBlock) (mid : List Char) (ctr : Nat) :
    Option ParsedContent × Nat :=
  if isShellCommand b.content b.language then
    (some ⟨PCKind.command, jsTrim b.content, none, none,
      some ("command-".data ++ mid ++ '-' :: (Nat.repr ctr).data)⟩, ctr + 1)
  else if isValidFilePath b.filePath then
    (some ⟨PCKind.file, b.content, some b.filePath, some b.language,
      some ("file-".data ++ mid ++ '-' :: (Nat.repr ctr).data)⟩, ctr + 1)
  else (none, ctr)

/-- `parseFileOperation(operation, messageId)`. -/
def parseFileOperation (op : FileOperation) (mid : List Char) (ctr : Nat) :
    Option ParsedContent × Nat :=
  if isValidFilePath op.filePath then
    (some ⟨PCKind.file, op.content, some op.filePath, none,
      some ("file-".data ++ mid ++ '-' :: (Nat.repr ctr).data)⟩, ctr + 1)
  else (none, ctr)

/-- The first loop of `parse`: hash-dedup then classify each detected code
block.  Returns the grown hash set, the counter, and the emitted results. -/
def processBlocksLoop (mid : List Char) :
    List DetectedBlock → List (List Char) → Nat → List (List Char) × Nat × List ParsedContent
  | [], processed, ctr => (processed, ctr, [])
  | b :: rest, processed, ctr =>
    let h := hashBlock b.matchText
    if h ∈ processed then processBlocksLoop mid rest processed ctr
    else
      match classifyBlock b mid ctr with
      | (some pc, ctr1) =>
        let r := processBlocksLoop mid rest (processed ++ [h]) ctr1
        (r.1, r.2.1, pc :: r.2.2)
      | (none, ctr1) => processBlocksLoop mid rest (processed ++ [h]) ctr1

/-- The second loop of `parse`: hash-dedup then parse each detected file
operation, sharing the same per-message hash set. -/
def processOpsLoop (mid : List Char) :
    List FileOperation → List (List Char) → Nat → List (List Char) × Nat × List ParsedContent
  | [], processed, ctr => (processed, ctr, [])
  | op :: rest, processed, ctr =>
    let h := hashBlock op.matchText
    if h ∈ processed then processOpsLoop mid rest processed ctr
    else
      match parseFileOperation op mid ctr with
      | (some pc, ctr1) =>
        let r := processOpsLoop mid rest (processed ++ [h]) ctr1
        (r.1, r.2.1, pc :: r.2.2)
      | (none, ctr1) => processOpsLoop mid rest (processed ++ [h]) ctr1

/-- Association-list lookup (`Map.get`). -/
def lookupA {β : Type} : List (List Char × β) → List Char → Option β
  | [], _ => none
  | (k, v) :: rest, q => if k = q then some v else lookupA rest q

/-- `Map.set`: replace the entry of an existing key in place, else append. -/
def setA {β : Type} : List (List Char × β) → List Char → β → List (List Char × β)
  | [], k, v => [(k, v)]
  | (k1, v1) :: rest, k, v =>
    if k1 = k then (k, v) :: rest else (k1, v1) :: setA rest k v

/-- The parser's mutable state: `processedBlocks` (message id → set of block
hashes) and `artifactCounter`. -/
structure EMPState where
  processedBlocks : List (List Char × List (List Char))
  artifactCounter : Nat
  deriving Repr, DecidableEq

/-- `EnhancedMessageParser.parse(messageId, input)`, with the detector
outputs `detectCodeBlocks(input)` and `detectFileOperations(input)` passed as
the lists they return.  Fetches (or creates) the per-message hash set, runs
the two dedup-classify loops, stores the grown set back, and returns the
emitted results in order. -/
def parseEMP (mid : List Char) (blocks : List DetectedBlock) (ops : List FileOperation)
    (st : EMPState) : EMPState × List ParsedContent :=
  let processed0 := (lookupA st.processedBlocks mid).getD []
  let r1 := processBlocksLoop mid blocks processed0 st.artifactCounter
  let r2 := processOpsLoop mid ops r1.1 r1.2.1
  (⟨setA st.processedBlocks mid r2.1, r2.2.1⟩, r1.2.2 ++ r2.2.2)

/-! ## Command queue (`src/unnamed/part_003`)

`CommandQueue` is modelled as a state machine.  The synchronous portions of
the JS methods (everything between `await` suspension points) are atomic
steps; `Date.now`, id generation and the executor's outcome are environment
inputs of the steps.  `isProcessing` is omitted: it is `false` at every
suspension point, because `processQueue`'s loop body is synchronous and every
re-entrant call happens after an `await`. -/

/-- `Command['type']`. -/
inductive CmdType where
  | install
  | build
  | dev
  | custom
  deriving Repr, DecidableEq

/-- `Command['status']`. -/
inductive CmdStatus where
  | pending
  | running
  | completed
  | failed
  deriving Repr, DecidableEq

/-- The `Command` record (`command` is the shell text). -/
structure Command where
  id : List Char
  command : List Char
  ctype : CmdType
  status : CmdStatus
  output : Option (List Char)
  error : Option (List Char)
  timestamp : Nat
  duration : Option Nat
  deriving Repr, DecidableEq

/-- The queue's mutable lists. -/
structure QState where
  queue : List Command
  running : List Command
  completed : List Command
  deriving Repr, DecidableEq

/-- A fresh `CommandQueue`. -/
def initQState : QState :=
  ⟨[], [], []⟩

/-- The `while` loop of `processQueue` fused with the synchronous prefix of
each spawned `executeCommand` (which marks the command `running` before its
first `await`): shift commands from the queue into `running` while the
concurrency limit allows. -/
def pump (maxc : Nat) : List Command → List Command → List Command × List Command
  | [], running => ([], running)
  | c :: rest, running =>
    if running.length < maxc then
      pump maxc rest (running ++ [{ c with status := CmdStatus.running }])
    else (c :: rest, running)

/-- `processQueue()` as a state transformer. -/
def processQueue (maxc : Nat) (s : QState) : QState :=
  let r := pump maxc s.queue s.running
  ⟨r.1, r.2, s.completed⟩

/-- `addCommand(command, type)`: append a fresh pending command and pump the
queue; the id and timestamp come from the environment. -/
def addCommand (maxc : Nat) (s : QState) (id cmdText : List Char) (ty : CmdType)
    (ts : Nat) : QState :=
  processQueue maxc
    ⟨s.queue ++ [⟨id, cmdText, ty, CmdStatus.pending, none, none, ts, none⟩],
      s.running, s.completed⟩

/-- Outcome of the awaited executor inside `executeCommand`. -/
inductive ExecOutcome where
  | ok (output : List Char) (dur : Nat)
  | err (msg : List Char) (dur : Nat)
  deriving Repr, DecidableEq

/-- The status/output/duration mutation of `executeCommand` after the
executor settles. -/
def finishCommand (c : Command) : ExecOutcome → Command
  | ExecOutcome.ok out dur =>
    { c with status := CmdStatus.completed, output := some out, duration := some dur }
  | ExecOutcome.err msg dur =>
    { c with status := CmdStatus.failed, error := some msg, duration := some dur }

/-- The tail of `executeCommand`: push to `completed`, remove from `running`
by id, and pump the queue again. -/
def completeRunning (maxc : Nat) (s : QState) (c : Command) (o : ExecOutcome) : QState :=
  processQueue maxc
    ⟨s.queue, s.running.filter (fun x => !decide (x.id = c.id)),
      s.completed ++ [finishCommand c o]⟩

/-- `retryCommand(id)`: only a `failed` command in `completed` is reset to
`pending`, re-appended to the queue tail, removed from `completed`, and the
queue pumped; otherwise a no-op. -/
def retryCommand (maxc : Nat) (s : QState) (id : List Char) : QState :=
  match s.completed.find? (fun c => decide (c.id = id) && decide (c.status = CmdStatus.failed)) with
  | none => s
  | some c =>
    processQueue maxc
      ⟨s.queue ++ [{ c with status := CmdStatus.pending, error := none }],
        s.running, s.completed.filter (fun x => !decide (x.id = id))⟩

/-- One atomic step of the queue: an `addCommand` call, the settlement of one
running command's executor, or a `retryCommand` call. -/
inductive QStep (maxc : Nat) : QState → QState → Prop where
  | add (s : QState) (id cmdText : List Char) (ty : CmdType) (ts : Nat) :
      QStep maxc s (addCommand maxc s id cmdText ty ts)
  | finish (s : QState) (c : Command) (o : ExecOutcome) (hc : c ∈ s.running) :
      QStep maxc s (completeRunning maxc s c o)
  | retry (s : QState) (id : List Char) :
      QStep maxc s (retryCommand maxc s id)

/-- States reachable from a fresh queue. -/
inductive QReach (maxc : Nat) : QState → Prop where
  | init : QReach maxc initQState
  | step {s t : QState} : QReach maxc s → QStep maxc s t → QReach maxc t

/-- Number of commands with status `running` across all three lists. -/
def runningCount (s : QState) : Nat :=
  ((s.queue ++ s.running ++ s.completed).filter
    (fun c => decide (c.status = CmdStatus.running))).length

/-! ## Debounced batcher (`src/lib/debounced-updater.ts`)

The timer is modelled by an active/inactive flag; `processBatch` takes the
handler's outcome (`onBatchReady` resolving or rejecting) as an input, and
the batch id and timestamp come from the environment. -/

/-- The batch record. -/
structure UpdateBatch where
  files : List (List Char × List Char)
  commands : List (List Char)
  timestamp : Nat
  id : List Char
  deriving Repr, DecidableEq

/-- The updater's mutable state. -/
structure BatchState where
  pendingFiles : List (List Char × List Char)
  pendingCommands : List (List Char)
  timeoutActive : Bool
  isProcessing : Bool
  deriving Repr, DecidableEq

/-- `addFile(path, content)`: record the file (object assignment) and
(re)start the debounce timer. -/
def duAddFile (s : BatchState) (p c : List Char) : BatchState :=
  { s with pendingFiles := setA s.pendingFiles p c, timeoutActive := true }

/-- `addCommand(command)`: push the command and (re)start the timer. -/
def duAddCommand (s : BatchState) (cmd : List Char) : BatchState :=
  { s with pendingCommands := s.pendingCommands ++ [cmd], timeoutActive := true }

/-- `processBatch()`: bail out while already processing or with nothing
pending; otherwise snapshot the pending buffers into a batch, clear them
*before* the handler runs, invoke the handler (a rejection is caught and
logged), and reset `isProcessing` in the `finally` clause. -/
def processBatch (s : BatchState) (outcome : Except (List Char) Unit) (ts : Nat)
    (bid : List Char) : BatchState × Option UpdateBatch :=
  if s.isProcessing || (s.pendingFiles.isEmpty && s.pendingCommands.isEmpty) then (s, none)
  else
    let batch : UpdateBatch := ⟨s.pendingFiles, s.pendingCommands, ts, bid⟩
    let s1 := { s with isProcessing := true, pendingFiles := [], pendingCommands := [] }
    let s2 := match outcome with
      | Except.ok _ => { s1 with isProcessing := false }
      | Except.error _ => { s1 with isProcessing := false }
    (s2, some batch)

/-- `flush()`: cancel the pending timer and process immediately. -/
def duFlush (s : BatchState) (outcome : Except (List Char) Unit) (ts : Nat)
    (bid : List Char) : BatchState × Option UpdateBatch :=
  processBatch { s with timeoutActive := false } outcome ts bid

/-- The queue invariant: bounded `running`, and each list holds only
commands of its phase's status. -/
def QInv (maxc : Nat) (s : QState) : Prop :=
  s.running.length ≤ maxc ∧
  (∀ c ∈ s.queue, c.status = CmdStatus.pending) ∧
  (∀ c ∈ s.running, c.status = CmdStatus.running) ∧
  (∀ c ∈ s.completed, c.status = CmdStatus.completed ∨ c.status = CmdStatus.failed)

/-! ### Theorems about the patch engine -/

/-- A replacement string without `$` is substituted literally. -/
theorem getSubstitution_no_dollar (m b a : List Char) :
    ∀ repl, '$' ∉ repl → getSubstitution m b a repl = repl := by
  intro repl h
  induction repl with
  | nil => rfl
  | cons c rest ih =>
    have hc : c ≠ '$' := fun e => h (e ▸ List.mem_cons_self c rest)
    have hr : '$' ∉ rest := fun e => h (List.mem_cons_of_mem c e)
    rw [getSubstitution.eq_def]
    simp only [if_neg hc]
    rw [ih hr]

/-- Specification of `firstOccAux`: a returned index is at least the starting
counter, marks an occurrence, and is minimal among occurrences. -/
theorem firstOccAux_spec (pat : List Char) :
    ∀ l k i, firstOccAux pat l k = some i →
      k ≤ i ∧ leadsWith pat (l.drop (i - k)) = true ∧
        ∀ j, leadsWith pat (l.drop j) = true → i ≤ k + j := by
  intro l
  induction l with
  | nil =>
    intro k i h
    by_cases hp : pat.isEmpty
    · simp [firstOccAux, hp] at h
      subst h
      rcases List.isEmpty_iff.mp hp with rfl
      simp [leadsWith]
    · simp [firstOccAux, hp] at h
  | cons c cs ih =>
    intro k i h
    by_cases hlead : leadsWith pat (c :: cs) = true
    · simp [firstOccAux, hlead] at h
      subst h
      simp [hlead]
    · simp [firstOccAux, hlead] at h
      obtain ⟨hk, hocc, hmin⟩ := ih (k + 1) i h
      refine ⟨Nat.le_of_succ_le hk, ?_, ?_⟩
      · have h1 : 1 ≤ i - k := Nat.le_sub_of_add_le (by omega)
        have : (c :: cs).drop (i - k) = cs.drop (i - k - 1) := by
          cases hik : i - k with
          | zero => omega
          | succ n => simp [List.drop_succ_cons]
        rw [this]
        have : i - k - 1 = i - (k + 1) := by omega
        rw [this]
        exact hocc
      · intro j hj
        cases j with
        | zero => simp at hj; exact absurd hj hlead
        | succ n =>
          have := hmin n (by simpa using hj)
          omega

/-- Specification of `indexOfList`: the returned index is the first
occurrence of the pattern. -/
theorem indexOfList_spec (s pat : List Char) (i : Nat)
    (h : indexOfList s pat = some i) :
    leadsWith pat (s.drop i) = true ∧ ∀ j, leadsWith pat (s.drop j) = true → i ≤ j := by
  have h' : firstOccAux pat s 0 = some i := by
    unfold indexOfList indexOfFrom at h
    cases hfa : firstOccAux pat (s.drop 0) 0 with
    | none => rw [hfa] at h; simp at h
    | some a =>
      rw [hfa] at h
      simp at h
      rw [← h]
      simpa using hfa
  have hs := firstOccAux_spec pat s 0 i h'
  refine ⟨by simpa using hs.2.1, fun j hj => by simpa using hs.2.2 j hj⟩

/-- Accumulation invariant of the patch loop: the produced `updatedLines`
extend the accumulator, and `hasChanges` is the old flag or-ed with whether
any new range was pushed (each successful block pushes exactly one range). -/
theorem applyDiffAux_changes (diff : List Char) :
    ∀ fuel pos content ranges flag, ∃ extra,
      (applyDiffAux diff fuel pos content ranges flag).updatedLines = ranges ++ extra ∧
      (applyDiffAux diff fuel pos content ranges flag).hasChanges = (flag || !extra.isEmpty) := by
  intro fuel
  induction fuel with
  | zero =>
    intro pos content ranges flag
    exact ⟨[], by simp [applyDiffAux]⟩
  | succ n ih =>
    intro pos content ranges flag
    rw [applyDiffAux]
    cases h1 : indexOfFrom diff searchStartMark pos with
    | none => exact ⟨[], by simp [h1]⟩
    | some si =>
      cases h2 : indexOfFrom diff dividerMark si with
      | none => exact ⟨[], by simp [h2]⟩
      | some di =>
        cases h3 : indexOfFrom diff replaceEndMark di with
        | none => exact ⟨[], by simp [h2, h3]⟩
        | some ri =>
          by_cases hemp : (jsTrim (jsSubstring diff (si + searchStartMark.length) di)).isEmpty
          · obtain ⟨extra, he1, he2⟩ := ih (ri + replaceEndMark.length)
              (jsTrim (jsSubstring diff (di + dividerMark.length) ri) ++ '\n' :: content)
              (ranges ++ [(1, countNl (jsTrim (jsSubstring diff (di + dividerMark.length) ri)) + 1)]) true
            refine ⟨(1, countNl (jsTrim (jsSubstring diff (di + dividerMark.length) ri)) + 1) :: extra, ?_, ?_⟩
            · simp [h2, h3, hemp, he1]
            · simp [h2, h3, hemp, he2]
          · cases h4 : indexOfList content (jsTrim (jsSubstring diff (si + searchStartMark.length) di)) with
            | none =>
              obtain ⟨extra, he1, he2⟩ := ih (ri + replaceEndMark.length) content ranges flag
              exact ⟨extra, by simp [h2, h3, hemp, h4, he1], by simp [h2, h3, hemp, h4, he2]⟩
            | some bp =>
              obtain ⟨extra, he1, he2⟩ := ih (ri + replaceEndMark.length)
                (jsReplaceFirst content (jsTrim (jsSubstring diff (si + searchStartMark.length) di))
                  (jsTrim (jsSubstring diff (di + dividerMark.length) ri)))
                (ranges ++ [(countNl (jsSubstring content 0 bp) + 1,
                  countNl (jsSubstring content 0 bp) + 1 + countNl (jsTrim (jsSubstring diff (di + dividerMark.length) ri)))]) true
              refine ⟨(countNl (jsSubstring content 0 bp) + 1,
                countNl (jsSubstring content 0 bp) + 1 + countNl (jsTrim (jsSubstring diff (di + dividerMark.length) ri))) :: extra, ?_, ?_⟩
              · simp [h2, h3, hemp, h4, he1]
              · simp [h2, h3, hemp, h4, he2]

/-- C5: when a `SEARCH` marker is found but its divider, or the divider's
`REPLACE` end marker, is missing, the patch loop stops scanning immediately,
raises no error, and returns exactly the already-accumulated content, touched
ranges and change flag (the effect of all blocks applied so far). -/
theorem claim_C5_malformed_preserves_applied
    (diff content : List Char) (fuel pos : Nat) (ranges : List (Nat × Nat)) (flag : Bool)
    (si : Nat)
    (hsi : indexOfFrom diff searchStartMark pos = some si)
    (hmal : indexOfFrom diff dividerMark si = none ∨
      ∃ di, indexOfFrom diff dividerMark si = some di ∧
        indexOfFrom diff replaceEndMark di = none) :
    applyDiffAux diff fuel pos content ranges flag = ⟨content, ranges, flag⟩ := by
  cases fuel with
  | zero => rfl
  | succ n =>
    rw [applyDiffAux]
    rcases hmal with h | ⟨di, hdi, hri⟩
    · simp [hsi, h]
    · simp [hsi, hdi, hri]

/-- Witness for C5 at a concrete malformed patch (a `SEARCH` marker with no
divider), starting from a state that already applied one block. -/
theorem claim_C5_w :
    indexOfFrom "<<<<<<< SEARCH\nfoo".data searchStartMark 0 = some 0 ∧
    applyDiffAux "<<<<<<< SEARCH\nfoo".data 5 0 "abc".data [(1, 1)] true =
      ⟨"abc".data, [(1, 1)], true⟩ :=
  ⟨by decide,
   claim_C5_malformed_preserves_applied _ _ 5 0 [(1, 1)] true 0 (by decide)
     (Or.inl (by decide))⟩

/-- C4: a well-formed triplet whose non-empty (trimmed) search text does not
occur in the current content is skipped without error — the loop continues
scanning after the block with content, ranges and flag unchanged — and the
returned `hasChanges` is `true` exactly when at least one block was applied
(equivalently, when at least one touched range was recorded). -/
theorem claim_C4_skip_and_hasChanges :
    (∀ (diff content : List Char) (fuel pos : Nat) (ranges : List (Nat × Nat)) (flag : Bool)
        (si di ri : Nat),
      indexOfFrom diff searchStartMark pos = some si →
      indexOfFrom diff dividerMark si = some di →
      indexOfFrom diff replaceEndMark di = some ri →
      jsTrim (jsSubstring diff (si + searchStartMark.length) di) ≠ [] →
      indexOfList content (jsTrim (jsSubstring diff (si + searchStartMark.length) di)) = none →
      applyDiffAux diff (fuel + 1) pos content ranges flag =
        applyDiffAux diff fuel (ri + replaceEndMark.length) content ranges flag)
    ∧ ∀ original diffContent : List Char,
        (applyDiffPatches original diffContent).hasChanges = true ↔
          (applyDiffPatches original diffContent).updatedLines ≠ [] := by
  constructor
  · intro diff content fuel pos ranges flag si di ri hsi hdi hri hne hnf
    rw [applyDiffAux]
    simp [hsi, hdi, hri, hne, hnf]
  · intro original diffContent
    obtain ⟨extra, he1, he2⟩ :=
      applyDiffAux_changes diffContent (diffContent.length + 1) 0 original [] false
    unfold applyDiffPatches
    rw [he1, he2]
    simp

/-- Witness for C4: a concrete patch whose search text `xyz` is absent from
`abc` is skipped, and `hasChanges` of a no-op patch application is `false`
with no recorded ranges. -/
theorem claim_C4_w :
    indexOfList "abc".data
        (jsTrim (jsSubstring "<<<<<<< SEARCH\nxyz\n=======\nbar\n>>>>>>> REPLACE".data
          (0 + searchStartMark.length) 19)) = none ∧
    applyDiffAux "<<<<<<< SEARCH\nxyz\n=======\nbar\n>>>>>>> REPLACE".data 1 0 "abc".data [] false =
      applyDiffAux "<<<<<<< SEARCH\nxyz\n=======\nbar\n>>>>>>> REPLACE".data 0
        (31 + replaceEndMark.length) "abc".data [] false ∧
    ((applyDiffPatches "abc".data "junk".data).hasChanges = true ↔
      (applyDiffPatches "abc".data "junk".data).updatedLines ≠ []) :=
  ⟨by decide,
   claim_C4_skip_and_hasChanges.1 _ _ 0 0 [] false 0 19 31 (by decide) (by decide) (by decide)
     (by decide) (by decide),
   claim_C4_skip_and_hasChanges.2 "abc".data "junk".data⟩

/-- C3 (amended): a well-formed triplet with non-empty trimmed search text
found in the current (already-patched) content replaces exactly the first
occurrence — the returned index is an occurrence and is minimal — and records
the touched range `[startLine, startLine + replaceLineCount - 1]` with
`startLine` one plus the number of newlines before the match.  The amendment:
for every replace text, the text substituted for the first occurrence is the
JavaScript `GetSubstitution` expansion of the replace text (the last
conjunct), and that expansion coincides with the replace text itself exactly
whenever the replace text contains no `$` (third conjunct); the original
claim's unconditional "replaced by the replace text" fails for `$`-escapes
(see the counterexample). -/
theorem claim_C3_first_occurrence
    (diff content : List Char) (fuel pos : Nat) (ranges : List (Nat × Nat)) (flag : Bool)
    (si di ri bp : Nat) (sb rb : List Char)
    (hsi : indexOfFrom diff searchStartMark pos = some si)
    (hdi : indexOfFrom diff dividerMark si = some di)
    (hri : indexOfFrom diff replaceEndMark di = some ri)
    (hsb : sb = jsTrim (jsSubstring diff (si + searchStartMark.length) di))
    (hrb : rb = jsTrim (jsSubstring diff (di + dividerMark.length) ri))
    (hne : sb ≠ [])
    (hbp : indexOfList content sb = some bp) :
    leadsWith sb (content.drop bp) = true ∧
    (∀ j, leadsWith sb (content.drop j) = true → bp ≤ j) ∧
    ('$' ∉ rb →
      getSubstitution sb (content.take bp) (content.drop (bp + sb.length)) rb = rb) ∧
    applyDiffAux diff (fuel + 1) pos content ranges flag =
      applyDiffAux diff fuel (ri + replaceEndMark.length)
        (content.take bp ++
          getSubstitution sb (content.take bp) (content.drop (bp + sb.length)) rb ++
          content.drop (bp + sb.length))
        (ranges ++ [(countNl (content.take bp) + 1, countNl (content.take bp) + 1 + countNl rb)])
        true := by
  obtain ⟨hocc, hmin⟩ := indexOfList_spec content sb bp hbp
  refine ⟨hocc, hmin, fun hnd => getSubstitution_no_dollar _ _ _ rb hnd, ?_⟩
  have hsub : ∀ b : Nat, jsSubstring content 0 b = content.take b := by
    intro b; simp [jsSubstring]
  rw [applyDiffAux]
  subst hsb hrb
  simp [hsi, hdi, hri, hne, hbp, jsReplaceFirst, hsub]

/-- Counterexample to C3 as stated: with replace text `$&$&`, JavaScript
`String.prototype.replace` expands `$&` to the matched search text, so the
first occurrence is not replaced by the replace text itself: patching `foo`
yields `foofoo`, not `$&$&`. -/
theorem claim_C3_counterexample :
    (applyDiffPatches "foo".data
        "<<<<<<< SEARCH\nfoo\n=======\n$&$&\n>>>>>>> REPLACE".data).modifiedContent ≠
      "$&$&".data ∧
    (applyDiffPatches "foo".data
        "<<<<<<< SEARCH\nfoo\n=======\n$&$&\n>>>>>>> REPLACE".data).modifiedContent =
      "foofoo".data :=
  ⟨by decide, by decide⟩

/-- Witness for C3 at a concrete patch with the `$&$&` replace text, whose
`GetSubstitution` expansion (doubling the matched `foo`) is exercised
non-trivially. -/
theorem claim_C3_w :
    indexOfList "foo\nbaz".data
        (jsTrim (jsSubstring "<<<<<<< SEARCH\nfoo\n=======\n$&$&\n>>>>>>> REPLACE".data
          (0 + searchStartMark.length) 19)) = some 0 ∧
    applyDiffAux "<<<<<<< SEARCH\nfoo\n=======\n$&$&\n>>>>>>> REPLACE".data 1 0 "foo\nbaz".data
        [] false =
      applyDiffAux "<<<<<<< SEARCH\nfoo\n=======\n$&$&\n>>>>>>> REPLACE".data 0
        (32 + replaceEndMark.length)
        ("foo\nbaz".data.take 0 ++
          getSubstitution "foo".data ("foo\nbaz".data.take 0)
            ("foo\nbaz".data.drop (0 + "foo".data.length)) "$&$&".data ++
          "foo\nbaz".data.drop (0 + "foo".data.length))
        ([] ++ [(countNl ("foo\nbaz".data.take 0) + 1,
          countNl ("foo\nbaz".data.take 0) + 1 + countNl "$&$&".data)]) true ∧
    getSubstitution "foo".data ("foo\nbaz".data.take 0)
        ("foo\nbaz".data.drop (0 + "foo".data.length)) "$&$&".data = "foofoo".data :=
  ⟨by decide,
   (claim_C3_first_occurrence "<<<<<<< SEARCH\nfoo\n=======\n$&$&\n>>>>>>> REPLACE".data
     "foo\nbaz".data 0 0 [] false 0 19 32 0 "foo".data "$&$&".data (by decide) (by decide)
     (by decide) (by decide) (by decide) (by decide) (by decide)).2.2.2,
   by decide⟩

/-! ### Theorems about the file store locking system -/

/-- Lookup commutes with an entrywise update. -/
theorem lookupFM_mapEntries (f : List Char → Dirent → Dirent) (m : FileMap) (p : List Char) :
    lookupFM (mapEntries f m) p = (lookupFM m p).map (f p) := by
  induction m with
  | nil => rfl
  | cons e rest ih =>
    obtain ⟨q, d⟩ := e
    by_cases hq : q = p
    · subst hq
      simp [mapEntries, lookupFM]
    · simp [mapEntries, lookupFM, hq] at ih ⊢
      exact ih

/-- Updating one key leaves lookups of other keys unchanged. -/
theorem lookupFM_updEntry_ne (m : FileMap) (p q : List Char) (d : Dirent) (h : q ≠ p) :
    lookupFM (updEntry m p d) q = lookupFM m q := by
  rw [updEntry, lookupFM_mapEntries]
  simp [h]

/-- Updating an existing key makes its lookup return the new dirent. -/
theorem lookupFM_updEntry_eq (m : FileMap) (p : List Char) (d d0 : Dirent)
    (h : lookupFM m p = some d0) : lookupFM (updEntry m p d) p = some d := by
  rw [updEntry, lookupFM_mapEntries, h]
  simp

/-- A prefix is never longer than the string it leads. -/
theorem leadsWith_length : ∀ pat s : List Char, leadsWith pat s = true → pat.length ≤ s.length := by
  intro pat
  induction pat with
  | nil => intro s _; simp
  | cons a as ih =>
    intro s h
    cases s with
    | nil => simp [leadsWith] at h
    | cons b bs =>
      simp [leadsWith] at h
      have := ih bs h.2
      simpa using this

/-- C2 (amended): `unlockFolder` clears the folder's own lock and clears
`isLocked`/`lockedByFolder` exactly on the files under the folder whose
`lockedByFolder` equals that folder; any file whose `lockedByFolder` differs
from the folder (in the state `unlockFolder` actually sees) is left
untouched.  The amendment: the original claim's scenario — a file locked
individually *before* a folder lock on an ancestor — does not survive
`unlockFolder`, because `lockFolder` overwrites `lockedByFolder` on every
file under the folder, co-opting independently locked files; only files
whose `lockedByFolder` still differs from the folder at unlock time are left
locked (see the counterexample). -/
theorem claim_C2_amended (m : FileMap) (fp : List Char) (il : Option Bool)
    (lbf : Option (List Char))
    (hfold : lookupFM m fp = some (Dirent.folder il lbf)) :
    (unlockFolder m fp).1 = true ∧
    lookupFM (unlockFolder m fp).2 fp = some (Dirent.folder (some false) lbf) ∧
    (∀ p c b fil flbf, p ≠ fp →
      lookupFM m p = some (Dirent.file c b fil flbf) → flbf ≠ some fp →
      lookupFM (unlockFolder m fp).2 p = some (Dirent.file c b fil flbf)) ∧
    (∀ p c b fil, leadsWith (fp ++ ['/']) p = true →
      lookupFM m p = some (Dirent.file c b fil (some fp)) →
      lookupFM (unlockFolder m fp).2 p = some (Dirent.file c b (some false) none)) := by
  have hfp : leadsWith (fp ++ ['/']) fp = false := by
    by_contra h
    have := leadsWith_length (fp ++ ['/']) fp (by revert h; cases leadsWith (fp ++ ['/']) fp <;> simp)
    simp at this
  refine ⟨?_, ?_, ?_, ?_⟩
  · rw [unlockFolder, hfold]
  · rw [unlockFolder, hfold]
    simp only
    rw [lookupFM_mapEntries, lookupFM_updEntry_eq m fp _ _ hfold]
    simp [hfp]
  · intro p c b fil flbf hne hfile hnlbf
    rw [unlockFolder, hfold]
    simp only
    rw [lookupFM_mapEntries, lookupFM_updEntry_ne m fp p _ hne, hfile]
    by_cases hl : leadsWith (fp ++ ['/']) p = true
    · simp [hl, hnlbf]
    · simp at hl
      simp [hl]
  · intro p c b fil hlead hfile
    have hne : p ≠ fp := by
      intro e
      subst e
      rw [hlead] at hfp
      cases hfp
    rw [unlockFolder, hfold]
    simp only
    rw [lookupFM_mapEntries, lookupFM_updEntry_ne m fp p _ hne, hfile]
    simp [hlead]

/-- Counterexample to C2 as stated: `/src/b.js` is locked individually
(`lockedByFolder` unset, as the first conjunct shows), then `/src` is locked
and unlocked; the file ends up unlocked, not locked — `lockFolder`
overwrote its `lockedByFolder` with `/src`, so `unlockFolder` cleared it. -/
theorem claim_C2_counterexample :
    isFileLocked
      ((lockFile [("/src".data, Dirent.folder (some false) none),
                  ("/src/b.js".data, Dirent.file "x".data false (some false) none)]
        "/src/b.js".data).2) "/src/b.js".data = ⟨true, some "/src/b.js".data⟩ ∧
    isFileLocked
      ((unlockFolder
        ((lockFolder
          ((lockFile [("/src".data, Dirent.folder (some false) none),
                      ("/src/b.js".data, Dirent.file "x".data false (some false) none)]
            "/src/b.js".data).2) "/src".data).2) "/src".data).2) "/src/b.js".data =
      ⟨false, none⟩ :=
  ⟨by decide, by decide⟩

/-- Witness for C2 (amended) at a concrete two-entry store whose file was
marked `lockedByFolder: "/src"`. -/
theorem claim_C2_w :
    lookupFM [("/src".data, Dirent.folder (some false) none),
              ("/src/b.js".data, Dirent.file "x".data false (some true) (some "/src".data))]
        "/src".data = some (Dirent.folder (some false) none) ∧
    lookupFM
      (unlockFolder [("/src".data, Dirent.folder (some false) none),
                     ("/src/b.js".data, Dirent.file "x".data false (some true) (some "/src".data))]
        "/src".data).2 "/src/b.js".data =
      some (Dirent.file "x".data false (some false) none) :=
  ⟨by decide,
   (claim_C2_amended _ "/src".data (some false) none (by decide)).2.2.2 "/src/b.js".data
     "x".data false (some true) (by decide) (by decide)⟩

/-! ### Theorems about the streaming tag parser -/

/-- After processing a non-empty list of action-open matches, the tracked
current action is the last-opened one, with empty content, and the
inside-action flag is set. -/
theorem applyActionOpens_last (mid : List Char) :
    ∀ ms st, ms ≠ [] → ∃ ty fp n,
      (applyActionOpens mid st ms).insideAction = true ∧
      (applyActionOpens mid st ms).currentAction =
        some ⟨ty, fp, [], mid ++ '-' :: (Nat.repr n).data⟩ := by
  intro ms
  induction ms with
  | nil => intro st h; exact absurd rfl h
  | cons m rest ih =>
    intro st _
    cases rest with
    | nil =>
      exact ⟨m.1, m.2, st.actionId + 1, rfl, rfl⟩
    | cons m2 rest2 =>
      have := ih ({ st with
        insideAction := true
        actionId := st.actionId + 1
        currentAction := some ⟨m.1, m.2, [], mid ++ '-' :: (Nat.repr (st.actionId + 1)).data⟩ })
        (by simp)
      simpa [applyActionOpens] using this

/-- With no open action, `</boltAction>` matches are no-ops. -/
theorem applyActionCloses_notInside :
    ∀ n st, st.insideAction = false → applyActionCloses n st = (st, []) := by
  intro n
  induction n with
  | zero => intro st _; rfl
  | succ k ih =>
    intro st h
    simp [applyActionCloses, h, ih st h]

/-- Every action emitted by the action-close loop is the action that was
open when the loop started (at most one action is emitted per call). -/
theorem applyActionCloses_emits :
    ∀ n st a, a ∈ (applyActionCloses n st).2 → st.currentAction = some a := by
  intro n
  induction n with
  | zero => intro st a h; simp [applyActionCloses] at h
  | succ k ih =>
    intro st a h
    by_cases hin : st.insideAction
    · cases hcur : st.currentAction with
      | none =>
        rw [applyActionCloses] at h
        simp [hin, hcur] at h
        exact absurd (ih st a h) (by simp [hcur])
      | some a0 =>
        rw [applyActionCloses] at h
        simp [hin, hcur] at h
        rw [applyActionCloses_notInside k _ (by simp)] at h
        simp at h
        subst h
        rfl
    · rw [applyActionCloses] at h
      simp [hin] at h
      rw [applyActionCloses_notInside k st (by simpa using hin)] at h
      simp at h

/-- C10: in a single `parse` call whose newly scanned suffix contains both an
action-open match and an action-close match, an action is emitted via
`onActionStream`, and every action emitted in that call has empty content —
the open loop runs before the close loop, so the emitted action is the
last-opened one, whose content buffer was never filled (text between the two
tags is accumulated only when the closing tag arrives in a later call). -/
theorem claim_C10_same_call_close (mid : List Char) (st : MsgState) (input : List Char)
    (hopen : actionOpens (input.drop st.position) ≠ [])
    (hclose : 1 ≤ actionCloseCount (input.drop st.position)) :
    (parseStep mid st input).2.1 ≠ [] ∧
    ∀ a ∈ (parseStep mid st input).2.1, a.content = [] := by
  obtain ⟨ty, fp, n, hin, hcur⟩ := applyActionOpens_last mid (actionOpens (input.drop st.position))
    (applyArtifactOpens { st with position := input.length }
      (artifactOpens (input.drop st.position))) hopen
  constructor
  · obtain ⟨k, hk⟩ : ∃ k, actionCloseCount (input.drop st.position) = k + 1 :=
      ⟨actionCloseCount (input.drop st.position) - 1, by omega⟩
    simp only [parseStep, hk]
    rw [applyActionCloses]
    simp [hin, hcur]
  · intro a ha
    simp only [parseStep] at ha
    have := applyActionCloses_emits (actionCloseCount (input.drop st.position)) _ a ha
    rw [hcur] at this
    cases this
    rfl

/-- C1 (failing input): a single full-text `parse` call completes the
artifact `a`, but the strictly growing prefix sequence `"<bolt"`, full text
completes no artifact at all — the artifact-open tag is split across the two
scanned suffixes and the open regex never matches, so the close is ignored.
The streaming/one-shot equivalence stated by the spec fails on this input. -/
theorem claim_C1_failing_input :
    runParse "m".data ["<boltArtifact id=\"a\" title=\"t\"></boltArtifact>".data] =
      [{ id := "a".data, title := "t".data, actions := [] }] ∧
    runParse "m".data
      ["<bolt".data, "<boltArtifact id=\"a\" title=\"t\"></boltArtifact>".data] = [] :=
  ⟨by decide, by decide⟩

/-- Witness for C10 at a concrete call containing a complete action whose
tags and inner text all arrive in one suffix. -/
theorem claim_C10_w :
    actionOpens ("<boltAction type=\"shell\">echo</boltAction>".data.drop
        initMsgState.position) ≠ [] ∧
    ((parseStep "m".data initMsgState "<boltAction type=\"shell\">echo</boltAction>".data).2.1 ≠ [] ∧
      ∀ a ∈ (parseStep "m".data initMsgState
        "<boltAction type=\"shell\">echo</boltAction>".data).2.1, a.content = []) :=
  ⟨by decide,
   claim_C10_same_call_close "m".data initMsgState
     "<boltAction type=\"shell\">echo</boltAction>".data (by decide) (by decide)⟩


/-! ### Theorems about the block classifier dedup -/

/-- The per-message hash set only grows through the block loop. -/
theorem processBlocksLoop_grow (mid : List Char) :
    ∀ (bs : List DetectedBlock) processed ctr (x : List Char), x ∈ processed →
      x ∈ (processBlocksLoop mid bs processed ctr).1 := by
  intro bs
  induction bs with
  | nil => intro processed ctr x hx; simpa [processBlocksLoop] using hx
  | cons b rest ih =>
    intro processed ctr x hx
    rw [processBlocksLoop]
    by_cases hmem : hashBlock b.matchText ∈ processed
    · simp only [if_pos hmem]
      exact ih processed ctr x hx
    · simp only [if_neg hmem]
      cases hcl : classifyBlock b mid ctr with
      | mk opc ctr1 =>
        cases opc with
        | some pc =>
          simp only
          exact ih (processed ++ [hashBlock b.matchText]) ctr1 x (List.mem_append_left _ hx)
        | none =>
          simp only
          exact ih (processed ++ [hashBlock b.matchText]) ctr1 x (List.mem_append_left _ hx)

/-- After the block loop, the hash of every listed block is in the set. -/
theorem processBlocksLoop_all (mid : List Char) :
    ∀ (bs : List DetectedBlock) processed ctr (b : DetectedBlock), b ∈ bs →
      hashBlock b.matchText ∈ (processBlocksLoop mid bs processed ctr).1 := by
  intro bs
  induction bs with
  | nil => intro processed ctr b hb; simp at hb
  | cons b0 rest ih =>
    intro processed ctr b hb
    rw [processBlocksLoop]
    rcases List.mem_cons.mp hb with rfl | hb2
    · by_cases hmem : hashBlock b.matchText ∈ processed
      · simp only [if_pos hmem]
        exact processBlocksLoop_grow mid rest processed ctr _ hmem
      · simp only [if_neg hmem]
        cases hcl : classifyBlock b mid ctr with
        | mk opc ctr1 =>
          have hin : hashBlock b.matchText ∈ processed ++ [hashBlock b.matchText] := by simp
          cases opc with
          | some pc =>
            simp only
            exact processBlocksLoop_grow mid rest _ ctr1 _ hin
          | none =>
            simp only
            exact processBlocksLoop_grow mid rest _ ctr1 _ hin
    · by_cases hmem : hashBlock b0.matchText ∈ processed
      · simp only [if_pos hmem]
        exact ih processed ctr b hb2
      · simp only [if_neg hmem]
        cases hcl : classifyBlock b0 mid ctr with
        | mk opc ctr1 =>
          cases opc with
          | some pc =>
            simp only
            exact ih _ ctr1 b hb2
          | none =>
            simp only
            exact ih _ ctr1 b hb2

/-- The per-message hash set only grows through the operations loop. -/
theorem processOpsLoop_grow (mid : List Char) :
    ∀ (os : List FileOperation) processed ctr (x : List Char), x ∈ processed →
      x ∈ (processOpsLoop mid os processed ctr).1 := by
  intro os
  induction os with
  | nil => intro processed ctr x hx; simpa [processOpsLoop] using hx
  | cons op rest ih =>
    intro processed ctr x hx
    rw [processOpsLoop]
    by_cases hmem : hashBlock op.matchText ∈ processed
    · simp only [if_pos hmem]
      exact ih processed ctr x hx
    · simp only [if_neg hmem]
      cases hcl : parseFileOperation op mid ctr with
      | mk opc ctr1 =>
        cases opc with
        | some pc =>
          simp only
          exact ih (processed ++ [hashBlock op.matchText]) ctr1 x (List.mem_append_left _ hx)
        | none =>
          simp only
          exact ih (processed ++ [hashBlock op.matchText]) ctr1 x (List.mem_append_left _ hx)

/-- A detected block whose content hash is already in the set contributes
nothing: the loop's outcome is as if the block were not detected at all. -/
theorem processBlocksLoop_skip (mid : List Char) (b : DetectedBlock) :
    ∀ (bs1 bs2 : List DetectedBlock) processed ctr,
      hashBlock b.matchText ∈ processed →
      processBlocksLoop mid (bs1 ++ b :: bs2) processed ctr =
        processBlocksLoop mid (bs1 ++ bs2) processed ctr := by
  intro bs1
  induction bs1 with
  | nil =>
    intro bs2 processed ctr hmem
    simp only [List.nil_append]
    rw [processBlocksLoop]
    simp [hmem]
  | cons b1 rest ih =>
    intro bs2 processed ctr hmem
    simp only [List.cons_append]
    rw [processBlocksLoop, processBlocksLoop]
    by_cases h1 : hashBlock b1.matchText ∈ processed
    · simp only [if_pos h1]
      exact ih bs2 processed ctr hmem
    · simp only [if_neg h1]
      cases hcl : classifyBlock b1 mid ctr with
      | mk opc ctr1 =>
        cases opc with
        | some pc =>
          simp only
          rw [ih bs2 (processed ++ [hashBlock b1.matchText]) ctr1 (List.mem_append_left _ hmem)]
        | none =>
          simp only
          exact ih bs2 _ ctr1 (List.mem_append_left _ hmem)

/-- `Map.get` after `Map.set` of the same key. -/
theorem lookupA_setA {β : Type} (m : List (List Char × β)) (k : List Char) (v : β) :
    lookupA (setA m k v) k = some v := by
  induction m with
  | nil => simp [setA, lookupA]
  | cons e rest ih =>
    obtain ⟨k1, v1⟩ := e
    by_cases he : k1 = k
    · subst he
      simp [setA, lookupA]
    · simp [setA, lookupA, he, ih]

/-- After the operations loop, the hash of every listed file operation is in
the set. -/
theorem processOpsLoop_all (mid : List Char) :
    ∀ (os : List FileOperation) processed ctr (op : FileOperation), op ∈ os →
      hashBlock op.matchText ∈ (processOpsLoop mid os processed ctr).1 := by
  intro os
  induction os with
  | nil => intro processed ctr op hop; simp at hop
  | cons op0 rest ih =>
    intro processed ctr op hop
    rw [processOpsLoop]
    rcases List.mem_cons.mp hop with rfl | hop2
    · by_cases hmem : hashBlock op.matchText ∈ processed
      · simp only [if_pos hmem]
        exact processOpsLoop_grow mid rest processed ctr _ hmem
      · simp only [if_neg hmem]
        cases hcl : parseFileOperation op mid ctr with
        | mk opc ctr1 =>
          have hin : hashBlock op.matchText ∈ processed ++ [hashBlock op.matchText] := by simp
          cases opc with
          | some pc =>
            simp only
            exact processOpsLoop_grow mid rest _ ctr1 _ hin
          | none =>
            simp only
            exact processOpsLoop_grow mid rest _ ctr1 _ hin
    · by_cases hmem : hashBlock op0.matchText ∈ processed
      · simp only [if_pos hmem]
        exact ih processed ctr op hop2
      · simp only [if_neg hmem]
        cases hcl : parseFileOperation op0 mid ctr with
        | mk opc ctr1 =>
          cases opc with
          | some pc =>
            simp only
            exact ih _ ctr1 op hop2
          | none =>
            simp only
            exact ih _ ctr1 op hop2

/-- A detected file operation whose content hash is already in the set
contributes nothing: the loop's outcome is as if it were not detected. -/
theorem processOpsLoop_skip (mid : List Char) (op : FileOperation) :
    ∀ (os1 os2 : List FileOperation) processed ctr,
      hashBlock op.matchText ∈ processed →
      processOpsLoop mid (os1 ++ op :: os2) processed ctr =
        processOpsLoop mid (os1 ++ os2) processed ctr := by
  intro os1
  induction os1 with
  | nil =>
    intro os2 processed ctr hmem
    simp only [List.nil_append]
    rw [processOpsLoop]
    simp [hmem]
  | cons op1 rest ih =>
    intro os2 processed ctr hmem
    simp only [List.cons_append]
    rw [processOpsLoop, processOpsLoop]
    by_cases h1 : hashBlock op1.matchText ∈ processed
    · simp only [if_pos h1]
      exact ih os2 processed ctr hmem
    · simp only [if_neg h1]
      cases hcl : parseFileOperation op1 mid ctr with
      | mk opc ctr1 =>
        cases opc with
        | some pc =>
          simp only
          rw [ih os2 (processed ++ [hashBlock op1.matchText]) ctr1 (List.mem_append_left _ hmem)]
        | none =>
          simp only
          exact ih os2 _ ctr1 (List.mem_append_left _ hmem)

/-- C6: dedup of `parse` per message id, over both detection channels.
Conjuncts one and two: after a call, the per-message set contains the content
hash of every detected code block and of every detected file operation of
that call (in particular of every returned block).  Conjuncts three and four:
a later call whose detected code blocks, respectively file operations,
include one whose exact matched substring was already processed — its hash is
in the set — returns exactly what it would return without that entry, so no
block with a previously returned matched substring is ever returned again.
All parts hold for arbitrary detector outputs, so in particular when the
second call's text is a superset of the first's. -/
theorem claim_C6_dedup :
    (∀ (mid : List Char) (blocks : List DetectedBlock) (ops : List FileOperation)
        (st : EMPState) (b : DetectedBlock), b ∈ blocks →
      hashBlock b.matchText ∈
        (lookupA (parseEMP mid blocks ops st).1.processedBlocks mid).getD []) ∧
    (∀ (mid : List Char) (blocks : List DetectedBlock) (ops : List FileOperation)
        (st : EMPState) (op : FileOperation), op ∈ ops →
      hashBlock op.matchText ∈
        (lookupA (parseEMP mid blocks ops st).1.processedBlocks mid).getD []) ∧
    (∀ (mid : List Char) (bs1 bs2 : List DetectedBlock) (b : DetectedBlock)
        (ops : List FileOperation) (st : EMPState),
      hashBlock b.matchText ∈ (lookupA st.processedBlocks mid).getD [] →
      parseEMP mid (bs1 ++ b :: bs2) ops st = parseEMP mid (bs1 ++ bs2) ops st) ∧
    (∀ (mid : List Char) (blocks : List DetectedBlock) (os1 os2 : List FileOperation)
        (op : FileOperation) (st : EMPState),
      hashBlock op.matchText ∈ (lookupA st.processedBlocks mid).getD [] →
      parseEMP mid blocks (os1 ++ op :: os2) st = parseEMP mid blocks (os1 ++ os2) st) := by
  refine ⟨?_, ?_, ?_, ?_⟩
  · intro mid blocks ops st b hb
    unfold parseEMP
    simp only
    rw [lookupA_setA]
    simp only [Option.getD_some]
    exact processOpsLoop_grow mid ops _ _ _
      (processBlocksLoop_all mid blocks _ st.artifactCounter b hb)
  · intro mid blocks ops st op hop
    unfold parseEMP
    simp only
    rw [lookupA_setA]
    simp only [Option.getD_some]
    exact processOpsLoop_all mid ops _ _ op hop
  · intro mid bs1 bs2 b ops st hmem
    unfold parseEMP
    simp only
    rw [processBlocksLoop_skip mid b bs1 bs2 _ st.artifactCounter hmem]
  · intro mid blocks os1 os2 op st hmem
    unfold parseEMP
    simp only
    rw [processOpsLoop_skip mid op os1 os2 _ _
      (processBlocksLoop_grow mid blocks _ st.artifactCounter _ hmem)]

/-- Witness for C6: a second call consisting of one code block, respectively
one file operation, whose hash is already recorded returns the same as an
empty call; and processing a fresh file operation records its hash. -/
theorem claim_C6_w :
    hashBlock "x".data ∈
      (lookupA (EMPState.mk [("m".data, [hashBlock "x".data])] 0).processedBlocks
        "m".data).getD [] ∧
    parseEMP "m".data [⟨"x".data, "file_path".data, "/a.js".data, "js".data, "y".data⟩] []
        (EMPState.mk [("m".data, [hashBlock "x".data])] 0) =
      parseEMP "m".data [] [] (EMPState.mk [("m".data, [hashBlock "x".data])] 0) ∧
    parseEMP "m".data [] [⟨"x".data, "/a.js".data, "y".data⟩]
        (EMPState.mk [("m".data, [hashBlock "x".data])] 0) =
      parseEMP "m".data [] [] (EMPState.mk [("m".data, [hashBlock "x".data])] 0) ∧
    hashBlock "z".data ∈
      (lookupA (parseEMP "m".data [] [⟨"z".data, "/b.js".data, "w".data⟩]
        (EMPState.mk [] 0)).1.processedBlocks "m".data).getD [] :=
  ⟨by decide,
   claim_C6_dedup.2.2.1 "m".data [] []
     ⟨"x".data, "file_path".data, "/a.js".data, "js".data, "y".data⟩ []
     (EMPState.mk [("m".data, [hashBlock "x".data])] 0) (by decide),
   claim_C6_dedup.2.2.2 "m".data [] [] []
     ⟨"x".data, "/a.js".data, "y".data⟩
     (EMPState.mk [("m".data, [hashBlock "x".data])] 0) (by decide),
   claim_C6_dedup.2.1 "m".data [] [⟨"z".data, "/b.js".data, "w".data⟩]
     (EMPState.mk [] 0) ⟨"z".data, "/b.js".data, "w".data⟩ (by decide)⟩

/-! ### Theorems about the shell-command heuristic -/

/-- C7 (amended): for a fenced block whose language is a recognised shell
dialect, that does not look like script content and has more than one
non-empty line, the classifier labels it a command sequence iff strictly more
than 70% of its non-empty lines pass the sequence line test, which is: the
line does not start with `#` and passes the single-line command test or the
simple-command first-word test.  The amendment: the original claim's per-line
predicate was the single-line command test alone; the code additionally
excludes `#` lines (even ones that pass the single-line test through
chaining) and additionally admits lines passing only `isSimpleCommand` (see
the counterexample). -/
theorem claim_C7_amended (content lang : List Char)
    (hlang : shellLanguages.contains (jsToLowerStr lang) = true)
    (hscript : looksLikeScriptContent (jsTrim content) = false)
    (hmulti : 1 < (shellLines content).length) :
    (isShellCommand content lang = true ↔
      10 * ((shellLines content).filter (fun l =>
        decide (0 < l.length) && !leadsWith ['#'] l &&
          (isSingleLineCommand l || isSimpleCommand l))).length >
        7 * (shellLines content).length) := by
  have hne : (shellLines content).isEmpty = false := by
    cases h : (shellLines content) with
    | nil => rw [h] at hmulti; simp at hmulti
    | cons a t => simp
  have hlen : ((shellLines content).length = 1) = False := by
    simp
    omega
  rw [isShellCommand]
  simp only [hlang, Bool.not_true, if_false, hne, hscript, hlen]
  simp [isCommandSequence]

/-- Counterexample to C7 as stated: the block `#ls;pwd`×3 + `ls` (language
`bash`) satisfies all of the claim's hypotheses and 100% of its non-empty
lines pass the single-line command test (`#ls;pwd` passes through the
chaining branch), yet the classifier does not label it a command sequence,
because its per-line filter drops the three `#` lines. -/
theorem claim_C7_counterexample :
    shellLanguages.contains (jsToLowerStr "bash".data) = true ∧
    looksLikeScriptContent (jsTrim "#ls;pwd\n#ls;pwd\n#ls;pwd\nls".data) = false ∧
    1 < (shellLines "#ls;pwd\n#ls;pwd\n#ls;pwd\nls".data).length ∧
    10 * ((shellLines "#ls;pwd\n#ls;pwd\n#ls;pwd\nls".data).filter (fun l =>
      isSingleLineCommand l)).length >
      7 * (shellLines "#ls;pwd\n#ls;pwd\n#ls;pwd\nls".data).length ∧
    isShellCommand "#ls;pwd\n#ls;pwd\n#ls;pwd\nls".data "bash".data = false := by
  refine ⟨by decide, by decide, by decide, by decide, by decide⟩

/-- Witness for C7 (amended) at the two-line block `ls`, `pwd`. -/
theorem claim_C7_w :
    shellLanguages.contains (jsToLowerStr "bash".data) = true ∧
    (isShellCommand "ls\npwd".data "bash".data = true ↔
      10 * ((shellLines "ls\npwd".data).filter (fun l =>
        decide (0 < l.length) && !leadsWith ['#'] l &&
          (isSingleLineCommand l || isSimpleCommand l))).length >
        7 * (shellLines "ls\npwd".data).length) :=
  ⟨by decide,
   claim_C7_amended "ls\npwd".data "bash".data (by decide) (by decide) (by decide)⟩


/-! ### Theorems about the command queue and the debounced batcher -/

/-- Pumping never grows `running` beyond the concurrency limit. -/
theorem pump_le (maxc : Nat) :
    ∀ (q r : List Command), r.length ≤ maxc → (pump maxc q r).2.length ≤ maxc := by
  intro q
  induction q with
  | nil => intro r h; simpa [pump] using h
  | cons c rest ih =>
    intro r h
    rw [pump]
    by_cases hlt : r.length < maxc
    · simp only [if_pos hlt]
      exact ih _ (by simp; omega)
    · simp only [if_neg hlt]
      exact h

/-- Pumping only adds commands with status `running` to `running`. -/
theorem pump_running_status (maxc : Nat) :
    ∀ (q r : List Command), (∀ c ∈ r, c.status = CmdStatus.running) →
      ∀ c ∈ (pump maxc q r).2, c.status = CmdStatus.running := by
  intro q
  induction q with
  | nil => intro r h; simpa [pump] using h
  | cons c0 rest ih =>
    intro r h
    rw [pump]
    by_cases hlt : r.length < maxc
    · simp only [if_pos hlt]
      refine ih _ ?_
      intro c hc
      rcases List.mem_append.mp hc with hc1 | hc2
      · exact h c hc1
      · simp at hc2
        rw [hc2]
    · simp only [if_neg hlt]
      exact h

/-- Pumping leaves only pending commands in the queue. -/
theorem pump_queue_status (maxc : Nat) :
    ∀ (q r : List Command), (∀ c ∈ q, c.status = CmdStatus.pending) →
      ∀ c ∈ (pump maxc q r).1, c.status = CmdStatus.pending := by
  intro q
  induction q with
  | nil => intro r h; simp [pump]
  | cons c0 rest ih =>
    intro r h
    rw [pump]
    by_cases hlt : r.length < maxc
    · simp only [if_pos hlt]
      exact ih _ (fun c hc => h c (List.mem_cons_of_mem c0 hc))
    · simp only [if_neg hlt]
      exact h

/-- `processQueue` preserves the invariant. -/
theorem QInv_processQueue (maxc : Nat) (s : QState) (h : QInv maxc s) :
    QInv maxc (processQueue maxc s) := by
  obtain ⟨h1, h2, h3, h4⟩ := h
  exact ⟨pump_le maxc s.queue s.running h1, pump_queue_status maxc s.queue s.running h2,
    pump_running_status maxc s.queue s.running h3, h4⟩

/-- Every atomic step preserves the invariant. -/
theorem QInv_step (maxc : Nat) (s t : QState) (hs : QInv maxc s) (hstep : QStep maxc s t) :
    QInv maxc t := by
  obtain ⟨h1, h2, h3, h4⟩ := hs
  cases hstep with
  | add id cmdText ty ts =>
    apply QInv_processQueue
    refine ⟨h1, ?_, h3, h4⟩
    intro c hc
    rcases List.mem_append.mp hc with hc1 | hc2
    · exact h2 c hc1
    · simp at hc2
      rw [hc2]
  | finish c o hc =>
    apply QInv_processQueue
    refine ⟨?_, h2, ?_, ?_⟩
    · exact le_trans (List.length_filter_le _ _) h1
    · intro x hx
      exact h3 x (List.mem_of_mem_filter hx)
    · intro x hx
      rcases List.mem_append.mp hx with hx1 | hx2
      · exact h4 x hx1
      · simp at hx2
        rw [hx2]
        cases o with
        | ok out dur => left; rfl
        | err msg dur => right; rfl
  | retry id =>
    unfold retryCommand
    cases hf : s.completed.find? (fun c => decide (c.id = id) && decide (c.status = CmdStatus.failed)) with
    | none => exact ⟨h1, h2, h3, h4⟩
    | some c =>
      apply QInv_processQueue
      refine ⟨h1, ?_, h3, ?_⟩
      · intro x hx
        rcases List.mem_append.mp hx with hx1 | hx2
        · exact h2 x hx1
        · simp at hx2
          rw [hx2]
      · intro x hx
        exact h4 x (List.mem_of_mem_filter hx)

/-- The invariant holds in every reachable state. -/
theorem QInv_reach (maxc : Nat) (s : QState) (h : QReach maxc s) : QInv maxc s := by
  induction h with
  | init =>
    refine ⟨by simp [initQState], ?_, ?_, ?_⟩ <;> intro c hc <;> simp [initQState] at hc
  | step hr hstep ih => exact QInv_step maxc _ _ ih hstep

/-- C8: in every state reachable by any sequence of `addCommand` calls,
executor settlements and `retryCommand` calls on a queue with concurrency
limit `maxc`, at most `maxc` commands have status `running` simultaneously:
admission moves a command into `running` only while `running` is below the
limit, and a slot is freed only when a running command completes or fails. -/
theorem claim_C8_bound (maxc : Nat) (s : QState) (h : QReach maxc s) :
    runningCount s ≤ maxc := by
  obtain ⟨h1, h2, h3, h4⟩ := QInv_reach maxc s h
  unfold runningCount
  rw [List.filter_append, List.filter_append, List.length_append, List.length_append]
  have hq : (s.queue.filter (fun c => decide (c.status = CmdStatus.running))).length = 0 := by
    rw [List.length_eq_zero]
    rw [List.filter_eq_nil_iff]
    intro c hc
    simp [h2 c hc]
  have hc : (s.completed.filter (fun c => decide (c.status = CmdStatus.running))).length = 0 := by
    rw [List.length_eq_zero]
    rw [List.filter_eq_nil_iff]
    intro c hcm
    rcases h4 c hcm with h | h <;> simp [h]
  rw [hq, hc]
  simpa using le_trans (List.length_filter_le _ s.running) h1

/-- Witness for C8: three `addCommand` calls on a fresh queue with
`maxConcurrent = 2` leave exactly two commands running. -/
theorem claim_C8_w :
    runningCount (addCommand 2 (addCommand 2 (addCommand 2 initQState "c1".data "npm install".data
      CmdType.install 0) "c2".data "npm run build".data CmdType.build 1) "c3".data "ls".data
      CmdType.custom 2) = 2 ∧
    runningCount (addCommand 2 (addCommand 2 (addCommand 2 initQState "c1".data "npm install".data
      CmdType.install 0) "c2".data "npm run build".data CmdType.build 1) "c3".data "ls".data
      CmdType.custom 2) ≤ 2 :=
  ⟨by decide,
   claim_C8_bound 2 _
     (QReach.step
       (QReach.step
         (QReach.step QReach.init
           (QStep.add initQState "c1".data "npm install".data CmdType.install 0))
         (QStep.add _ "c2".data "npm run build".data CmdType.build 1))
       (QStep.add _ "c3".data "ls".data CmdType.custom 2))⟩

/-- C9: when `processBatch` runs a non-empty batch and the handler throws,
the error is caught (the resulting state and emitted batch are identical to
the success case), the batch holds exactly the pending buffers, the buffers
are cleared and never re-queued, and later additions still produce a full
subsequent batch containing exactly them — the failure does not block the
batcher. -/
theorem claim_C9_handler_failure (s : BatchState) (e : List Char) (ts ts2 : Nat)
    (bid bid2 p c cmd : List Char)
    (hproc : s.isProcessing = false)
    (hpend : s.pendingFiles.isEmpty = false ∨ s.pendingCommands.isEmpty = false) :
    processBatch s (Except.error e) ts bid = processBatch s (Except.ok ()) ts bid ∧
    (processBatch s (Except.error e) ts bid).2 =
      some ⟨s.pendingFiles, s.pendingCommands, ts, bid⟩ ∧
    (processBatch s (Except.error e) ts bid).1.pendingFiles = [] ∧
    (processBatch s (Except.error e) ts bid).1.pendingCommands = [] ∧
    (processBatch (duAddCommand (duAddFile (processBatch s (Except.error e) ts bid).1 p c) cmd)
        (Except.ok ()) ts2 bid2).2 = some ⟨[(p, c)], [cmd], ts2, bid2⟩ := by
  have hguard : (s.isProcessing || (s.pendingFiles.isEmpty && s.pendingCommands.isEmpty)) = false := by
    rcases hpend with h | h <;> simp [hproc, h]
  unfold processBatch
  rw [hguard]
  simp [duAddFile, duAddCommand, setA]

/-- Witness for C9 at a concrete one-file batch whose handler rejects. -/
theorem claim_C9_w :
    (BatchState.mk [("a".data, "1".data)] [] true false).isProcessing = false ∧
    (processBatch (BatchState.mk [("a".data, "1".data)] [] true false)
        (Except.error "boom".data) 5 "b1".data).2 =
      some ⟨[("a".data, "1".data)], [], 5, "b1".data⟩ ∧
    (processBatch (duAddCommand (duAddFile
        (processBatch (BatchState.mk [("a".data, "1".data)] [] true false)
          (Except.error "boom".data) 5 "b1".data).1 "p.js".data "x".data) "ls".data)
        (Except.ok ()) 6 "b2".data).2 =
      some ⟨[("p.js".data, "x".data)], ["ls".data], 6, "b2".data⟩ := by
  have h := claim_C9_handler_failure (BatchState.mk [("a".data, "1".data)] [] true false)
    "boom".data 5 6 "b1".data "b2".data "p.js".data "x".data "ls".data rfl (Or.inl (by decide))
  exact ⟨rfl, h.2.1, h.2.2.2.2⟩
